import Mathlib

/-!
Verification development for the Stock repository (app_portefeuille.py and
risk_portefeuille.py).

Shallow embedding conventions:
* Python floats are modelled by `ℚ` where the data is NaN-free, and by the
  type `PyFloat` (a rational or NaN) where NaN propagation matters.
* A Python function that can raise is modelled with `Option` (`none` = an
  exception escapes).
* `numpy.percentile` with the default linear interpolation is modelled by
  `percentileVal` over exact rationals; on an empty input numpy raises
  (modelled by `none`), and when the input contains NaN numpy returns NaN.
* Price histories fetched from yfinance are modelled by an abstract fetch
  function returning either a close series (a list of rationals) or an error.
  Histories of distinct tickers are assumed date-aligned (same length), which
  matches the fixed shared lookback period of the source.
-/

/-- Number of days used by the computations (source: LOOKBACK_DAYS = 252). -/
def LOOKBACK_DAYS : ℕ := 252

/-- Projection horizons in years (source: YEARS = [1, 5, 10, 20, 30]). -/
def YEARS : List ℕ := [1, 5, 10, 20, 30]

/-- Number of Monte Carlo simulations (source: SIMULATIONS = 1000). -/
def SIMULATIONS : ℕ := 1000

/-- A Python float value that is either an actual (rational) number or NaN. -/
inductive PyFloat where
  | nan : PyFloat
  | fin : ℚ → PyFloat
deriving DecidableEq, Repr

/-- Negation of a float: NaN propagates. -/
def PyFloat.neg : PyFloat → PyFloat
  | .nan => .nan
  | .fin q => .fin (-q)

/-- The rational values of a list of floats (NaN entries dropped). -/
def PyFloat.vals (l : List PyFloat) : List ℚ :=
  l.filterMap (fun x => match x with | .nan => none | .fin q => some q)

/-- Linear interpolation of a sorted data list at a virtual index x:
the value between the order statistics at positions floor x and floor x + 1.
Out-of-range upper neighbours fall back to the lower one, matching the
clamping numpy performs at the top of the range. -/
def interpAt (s : List ℚ) (x : ℚ) : ℚ :=
  let i : ℕ := ⌊x⌋.toNat
  s.getD i 0 + (x - (i : ℚ)) * (s.getD (i + 1) (s.getD i 0) - s.getD i 0)

/-- numpy linear-interpolation percentile of a nonempty NaN-free data set,
over exact rationals.  The data is sorted ascending; the virtual index is
p * (n - 1) / 100; the result linearly interpolates between the two
neighbouring order statistics. -/
def percentileVal (l : List ℚ) (p : ℚ) : ℚ :=
  let s := List.insertionSort (· ≤ ·) l
  interpAt s (p * ((s.length : ℚ) - 1) / 100)

/-- Model of numpy.percentile on a possibly NaN-carrying series.
numpy raises on an empty input (IndexError / ValueError from an empty take
or partition), modelled by `none`; if the input contains NaN the result is
NaN; otherwise it is the linear-interpolated percentile of the values. -/
def np_percentile (l : List PyFloat) (p : ℚ) : Option PyFloat :=
  if l.isEmpty then none
  else if PyFloat.nan ∈ l then some PyFloat.nan
  else some (PyFloat.fin (percentileVal (PyFloat.vals l) p))

/-- Source `calc_var` (risk_portefeuille.py lines 39-40):
return -np.percentile(series, (1-confidence)*100). -/
def calc_var (series : List PyFloat) (confidence : ℚ) : Option PyFloat :=
  (np_percentile series ((1 - confidence) * 100)).map PyFloat.neg

/-- Dot product of a weight vector with one date row of the return matrix. -/
def dotProd (w r : List ℚ) : ℚ := (List.zipWith (· * ·) w r).sum

/-- Source `compute_portfolio_var` (risk_portefeuille.py lines 42-44):
portf_returns = returns[weights.index].dot(weights); calc_var on it.
`returns` is the aligned return matrix as a list of date rows, each row
listing the per-ticker returns in the order of the weight vector. -/
def compute_portfolio_var (returns : List (List ℚ)) (weights : List ℚ)
    (confidence : ℚ) : Option PyFloat :=
  calc_var ((returns.map (dotProd weights)).map PyFloat.fin) confidence

/-- Spec-worded portfolio VaR (spec section 4.3): the weighted portfolio
return series is sum of weight_i * return_i per date, and the VaR at
confidence c is the negation of the (1-c)*100-th percentile of that series.
Stated over nonempty NaN-free data where the percentile is a plain value. -/
def portfolioVarSpec (returns : List (List ℚ)) (weights : List ℚ)
    (confidence : ℚ) : ℚ :=
  -(percentileVal (returns.map (fun row => (List.zipWith (· * ·) weights row).sum))
      ((1 - confidence) * 100))

/-- Source line 116: vol_pond = (weights * vol_annual).sum(), the
portfolio-weighted volatility (both series aligned on the same tickers). -/
def vol_pond (weights vols : List ℚ) : ℚ :=
  (List.zipWith (· * ·) weights vols).sum

/-- Outcome of one yfinance fetch: a close-price series, or a raised error. -/
inductive FetchOutcome where
  | ok : List ℚ → FetchOutcome
  | err : FetchOutcome

/-- The per-ticker loop of `get_price_history` (risk_portefeuille.py lines
21-32): a successful nonempty history becomes a column of price_hist, an
empty history or a raised error appends the ticker to missing. -/
def fetchLoop (fetch : String → FetchOutcome) :
    List String → List (String × List ℚ) × List String
  | [] => ([], [])
  | t :: ts =>
    let r := fetchLoop fetch ts
    match fetch t with
    | .ok h => if h.isEmpty then (r.1, t :: r.2) else ((t, h) :: r.1, r.2)
    | .err => (r.1, t :: r.2)

/-- Source line 34: df_prices.dropna(axis=1, how=all) drops the columns whose
entries are all missing.  In this NaN-free model a column is dropped exactly
when its history is empty. -/
def dropAllNaColumns (cols : List (String × List ℚ)) : List (String × List ℚ) :=
  cols.filter (fun c => !c.2.isEmpty)

/-- Source `get_price_history` (risk_portefeuille.py lines 20-34). -/
def get_price_history (fetch : String → FetchOutcome) (tickers : List String) :
    List (String × List ℚ) × List String :=
  let r := fetchLoop fetch tickers
  (dropAllNaColumns r.1, r.2)

/-- Source line 97: per-column simple percentage change between consecutive
observations; the first observation has no return (pandas pct_change
followed by dropna of the first row). -/
def pct_change (h : List ℚ) : List ℚ :=
  List.zipWith (fun prev cur => cur / prev - 1) h h.tail

/-- Source lines 98-99: restrict the portfolio to tickers having a return
column, and divide each value by the total value of the restricted set. -/
def compute_weights (portefeuille : List (String × ℚ)) (cols : List String) :
    List (String × ℚ) :=
  let df_valid := portefeuille.filter (fun p => cols.contains p.1)
  let total := (df_valid.map (fun p => p.2)).sum
  df_valid.map (fun p => (p.1, p.2 / total))

/-- Mean of a list of rationals (denominator 0 for the empty list). -/
def lmean (l : List ℚ) : ℚ := l.sum / (l.length : ℚ)

/-- The list recentred around its mean. -/
def centered (l : List ℚ) : List ℚ := l.map (fun x => x - lmean l)

/-- Unnormalised covariance sum of two aligned series (the normalisation
constants cancel in the Pearson correlation ratio). -/
def covn (x y : List ℚ) : ℚ :=
  (List.zipWith (· * ·) (centered x) (centered y)).sum

/-- Round half to even at integer precision (numpy rounding). -/
def roundHalfEven {α : Type} [LinearOrderedField α] [FloorRing α] (x : α) : ℤ :=
  let f := ⌊x⌋
  let r := x - (f : α)
  if r < 1 / 2 then f
  else if 1 / 2 < r then f + 1
  else if f % 2 = 0 then f else f + 1

/-- Round to 2 decimal places (pandas .round(2), numpy half-even ties). -/
def round2 {α : Type} [LinearOrderedField α] [FloorRing α] (x : α) : α :=
  ((roundHalfEven (x * 100) : ℤ) : α) / 100

/-- One entry of the pandas Pearson correlation matrix of two aligned return
series: cov / (std x * std y).  pandas (nancorr) puts NaN wherever the
divisor is zero, i.e. when one of the series has zero variance; this is
modelled by `none`. -/
noncomputable def corrEntry (x y : List ℚ) : Option ℝ :=
  if covn x x * covn y y = 0 then none
  else some ((covn x y : ℝ) / Real.sqrt ((covn x x : ℝ) * (covn y y : ℝ)))

/-- Source line 132: returns[weights.index].corr().round(2), the pairwise
Pearson correlation matrix of the return columns, rounded to 2 decimals. -/
noncomputable def corr_matrix (cols : List (List ℚ)) : List (List (Option ℝ)) :=
  cols.map (fun x => cols.map (fun y => (corrEntry x y).map round2))

/-- Sample variance with ddof = 1 (pandas default); NaN (`none`) when the
series has fewer than two observations. -/
def sampleVar (l : List ℚ) : Option ℚ :=
  if l.length ≤ 1 then none
  else some (((centered l).map (fun x => x * x)).sum / ((l.length : ℚ) - 1))

/-- Source `calc_volatility` (risk_portefeuille.py lines 36-37):
returns.std() * np.sqrt(252), per ticker. -/
noncomputable def calc_volatility (returns : List ℚ) : Option ℝ :=
  (sampleVar returns).map (fun v => Real.sqrt (v : ℝ) * Real.sqrt 252)

/-- Source line 57: the deterministic fixed-rate projection table
proj_moy = { y : valeur_actuelle * (1 + rendement_annuel/100)^y } over YEARS. -/
def projection_moyenne (valeur_actuelle rendement_annuel : ℚ) : List (ℕ × ℚ) :=
  YEARS.map (fun y => (y, valeur_actuelle * (1 + rendement_annuel / 100) ^ y))

/-- What the risk dashboard computes and hands to the presentation layer
(header metrics, correlation tab, projection tab) together with its return
value (vol_annual, var_95, var_99).  `none` models the early return
(None, None, None) taken when the fetched price frame is empty. -/
structure DashboardOutput where
  weights : List (String × ℚ)
  vol_annual : List (String × Option ℝ)
  var_95 : Option PyFloat
  var_99 : Option PyFloat
  corr : List (List (Option ℝ))
  valeur_actuelle : ℚ
  proj_moyenne : List (ℕ × ℚ)

/-- Source `show_risk_dashboard` (risk_portefeuille.py lines 85-151), its
display calls dropped, its computed quantities gathered in a structure.
Lines 93-95: if the price frame is empty, return the (None, None, None)
sentinel.  Lines 97-102 and 116, 131-133, 144-149 otherwise. -/
noncomputable def show_risk_dashboard (fetch : String → FetchOutcome)
    (portefeuille : List (String × ℚ)) : Option DashboardOutput :=
  let pr := get_price_history fetch (portefeuille.map (fun p => p.1))
  if pr.1.isEmpty then none
  else
    let returnsCols := pr.1.map (fun c => (c.1, pct_change c.2))
    let cols := returnsCols.map (fun c => c.1)
    let weights := compute_weights portefeuille cols
    let lookupRet := fun t =>
      ((returnsCols.find? (fun c => c.1 == t)).map (fun c => c.2)).getD []
    let nDates := match returnsCols with | [] => 0 | c :: _ => c.2.length
    let retMatrix := (List.range nDates).map
      (fun j => weights.map (fun p => (lookupRet p.1).getD j 0))
    let wvals := weights.map (fun p => p.2)
    let total := ((portefeuille.filter (fun p => cols.contains p.1)).map
      (fun p => p.2)).sum
    some
    { weights := weights
      vol_annual := weights.map (fun p => (p.1, calc_volatility (lookupRet p.1)))
      var_95 := compute_portfolio_var retMatrix wvals (95 / 100)
      var_99 := compute_portfolio_var retMatrix wvals (99 / 100)
      corr := corr_matrix (weights.map (fun p => lookupRet p.1))
      valeur_actuelle := total
      proj_moyenne := projection_moyenne total 0 }

/-- Value of a list of decimal digit characters. -/
def digitsVal (l : List Char) : ℕ :=
  l.foldl (fun acc c => 10 * acc + (c.toNat - 48)) 0

/-- Split a character list on a separator, mirroring Python str.split(sep):
the result always has one more part than there are separators. -/
def splitOnChar (sep : Char) : List Char → List (List Char)
  | [] => [[]]
  | c :: cs =>
    let r := splitOnChar sep cs
    if c = sep then [] :: r
    else
      match r with
      | [] => [[c]]
      | h :: t => (c :: h) :: t

/-- Python str.strip(): remove leading and trailing whitespace. -/
def stripChars (l : List Char) : List Char :=
  ((l.dropWhile Char.isWhitespace).reverse.dropWhile Char.isWhitespace).reverse

/-- Model of Python float() on an unsigned plain decimal literal: digits with
an optional decimal point (exponents, inf and nan are out of scope for the
holdings file). -/
def parseUnsigned (s : List Char) : Option ℚ :=
  match splitOnChar '.' s with
  | [ip] =>
    if 0 < ip.length ∧ ip.all (fun c => c.isDigit) then
      some ((digitsVal ip : ℚ))
    else none
  | [ip, fp] =>
    if 0 < ip.length + fp.length ∧ ip.all (fun c => c.isDigit) ∧
        fp.all (fun c => c.isDigit) then
      some ((digitsVal ip : ℚ) + (digitsVal fp : ℚ) / (10 : ℚ) ^ fp.length)
    else none
  | _ => none

/-- Model of Python float() including an optional sign; `none` models a
raised ValueError. -/
def parseFloat (s : List Char) : Option ℚ :=
  match s with
  | '-' :: rest => (parseUnsigned rest).map (fun q => -q)
  | '+' :: rest => parseUnsigned rest
  | _ => parseUnsigned s

/-- One holdings row (app_portefeuille.py lines 42-47). -/
structure Position where
  ticker : String
  prix_achat : ℚ
  quantite : ℚ
  dividendes_totaux : ℚ
deriving DecidableEq, Repr

/-- Parsing of one nonblank stripped holdings line (app_portefeuille.py
lines 41-47): split on /, parts[0] is the ticker, parts[1] and parts[2]
are entry price and quantity, parts[3] is the per-unit dividend when
present, else 0; the stored dividend is per-unit dividend times quantity.
A missing mandatory field or a malformed number raises (`none`). -/
def parseLine (line : List Char) : Option Position := do
  let parts := splitOnChar '/' line
  let ticker := String.mk (parts.headD [])
  let prix ← (parts[1]?).bind parseFloat
  let quantite ← (parts[2]?).bind parseFloat
  let dividende_unitaire ←
    if 3 < parts.length then (parts[3]?).bind parseFloat else pure 0
  pure ⟨ticker, prix, quantite, dividende_unitaire * quantite⟩

/-- Source `lire_portefeuille` (app_portefeuille.py lines 34-51) over the
list of raw lines of the holdings file (each line a character list):
strip each line, skip it when blank, otherwise parse it; the first
malformed line raises. -/
def lire_portefeuille : List (List Char) → Option (List Position)
  | [] => some []
  | line :: rest =>
    let l := stripChars line
    if l.isEmpty then lire_portefeuille rest
    else do
      let p ← parseLine l
      let tail ← lire_portefeuille rest
      pure (p :: tail)

/-- Source `calculs_financiers` (app_portefeuille.py line 62): the
Performance column, ((current - entry) / entry * 100).round(2). -/
def performance_pct (prix_achat cours_actuel : ℚ) : ℚ :=
  round2 ((cours_actuel - prix_achat) / prix_achat * 100)

/-! ## Helper lemmas -/

theorem getD_of_lt {α : Type} (l : List α) (d : α) {i : ℕ} (h : i < l.length) :
    l.getD i d = l[i] := by
  simp [List.getD_eq_getElem?_getD, List.getElem?_eq_getElem h]

theorem getD_of_le {α : Type} (l : List α) (d : α) {i : ℕ} (h : l.length ≤ i) :
    l.getD i d = d := by
  simp [List.getD_eq_getElem?_getD, List.getElem?_eq_none h]

theorem sorted_getD_mono {s : List ℚ} (hs : List.Sorted (· ≤ ·) s) {i j : ℕ}
    (hij : i ≤ j) (hj : j < s.length) : s.getD i 0 ≤ s.getD j 0 := by
  have hi : i < s.length := lt_of_le_of_lt hij hj
  rw [getD_of_lt s 0 hi, getD_of_lt s 0 hj]
  have := hs.rel_get_of_le (a := ⟨i, hi⟩) (b := ⟨j, hj⟩) hij
  simpa [List.get_eq_getElem] using this

theorem step_nonneg {s : List ℚ} (hs : List.Sorted (· ≤ ·) s) (k : ℕ) :
    0 ≤ s.getD (k + 1) (s.getD k 0) - s.getD k 0 := by
  rcases lt_or_le (k + 1) s.length with hlt | hle
  · rw [sub_nonneg, getD_of_lt s _ hlt, ← getD_of_lt s 0 hlt]
    exact sorted_getD_mono hs (Nat.le_succ k) hlt
  · rw [getD_of_le s _ hle, sub_self]

theorem interpAt_mono {s : List ℚ} (hs : List.Sorted (· ≤ ·) s)
    {x y : ℚ} (hx : 0 ≤ x) (hxy : x ≤ y) (hy : y ≤ (s.length : ℚ) - 1) :
    interpAt s x ≤ interpAt s y := by
  simp only [interpAt]
  have hfx0 : 0 ≤ ⌊x⌋ := Int.floor_nonneg.mpr hx
  have hfy0 : 0 ≤ ⌊y⌋ := le_trans hfx0 (Int.floor_le_floor hxy)
  set i : ℕ := ⌊x⌋.toNat with hidef
  set j : ℕ := ⌊y⌋.toNat with hjdef
  have hiz : (i : ℤ) = ⌊x⌋ := Int.toNat_of_nonneg hfx0
  have hjz : (j : ℤ) = ⌊y⌋ := Int.toNat_of_nonneg hfy0
  have hix : (i : ℚ) ≤ x := by
    have h := Int.floor_le x
    rw [← hiz] at h
    exact_mod_cast h
  have hxi : x < (i : ℚ) + 1 := by
    have h := Int.lt_floor_add_one x
    rw [← hiz] at h
    exact_mod_cast h
  have hjy : (j : ℚ) ≤ y := by
    have h := Int.floor_le y
    rw [← hjz] at h
    exact_mod_cast h
  have hij : i ≤ j := by
    have h := Int.floor_le_floor hxy
    rw [← hiz, ← hjz] at h
    exact_mod_cast h
  have hjlt : j < s.length := by
    have h1 : (j : ℚ) ≤ (s.length : ℚ) - 1 := le_trans hjy hy
    have h2 : (j : ℚ) < (s.length : ℚ) := by linarith
    exact_mod_cast h2
  rcases eq_or_lt_of_le hij with heq | hlt
  · rw [← heq]
    have hd := step_nonneg hs i
    have hmul := mul_le_mul_of_nonneg_right (show x - (i : ℚ) ≤ y - (i : ℚ) by linarith) hd
    linarith
  · have hi1j : i + 1 ≤ j := hlt
    have hi1lt : i + 1 < s.length := lt_of_le_of_lt hi1j hjlt
    have hstep1 : s.getD i 0 + (x - (i : ℚ)) *
        (s.getD (i + 1) (s.getD i 0) - s.getD i 0) ≤ s.getD (i + 1) 0 := by
      rw [getD_of_lt s (s.getD i 0) hi1lt, ← getD_of_lt s 0 hi1lt]
      have hD : 0 ≤ s.getD (i + 1) 0 - s.getD i 0 :=
        sub_nonneg.mpr (sorted_getD_mono hs (Nat.le_succ i) hi1lt)
      have hg1 : x - (i : ℚ) ≤ 1 := by linarith
      have hle := mul_le_of_le_one_left hD hg1
      linarith
    have hstep2 : s.getD (i + 1) 0 ≤ s.getD j 0 := sorted_getD_mono hs hi1j hjlt
    have hstep3 : s.getD j 0 ≤ s.getD j 0 + (y - (j : ℚ)) *
        (s.getD (j + 1) (s.getD j 0) - s.getD j 0) := by
      have hd := step_nonneg hs j
      have hg0 : 0 ≤ y - (j : ℚ) := by linarith
      nlinarith [mul_nonneg hg0 hd]
    linarith

theorem percentileVal_mono (l : List ℚ) (hl : l ≠ []) {p q : ℚ}
    (hp : 0 ≤ p) (hpq : p ≤ q) (hq : q ≤ 100) :
    percentileVal l p ≤ percentileVal l q := by
  simp only [percentileVal]
  set s := List.insertionSort (· ≤ ·) l with hsdef
  have hs : List.Sorted (· ≤ ·) s := List.sorted_insertionSort _ l
  have hsl : s.length = l.length := List.length_insertionSort _ l
  have hsne : s ≠ [] := by
    intro h
    apply hl
    have hlen := congrArg List.length h
    rw [hsl] at hlen
    exact List.length_eq_zero.mp hlen
  have hc : (0 : ℚ) ≤ (s.length : ℚ) - 1 := by
    have h1 : 0 < s.length := List.length_pos.mpr hsne
    have h2 : (1 : ℚ) ≤ (s.length : ℚ) := by exact_mod_cast h1
    linarith
  apply interpAt_mono hs
  · have := mul_nonneg hp hc
    positivity
  · have := mul_le_mul_of_nonneg_right hpq hc
    linarith
  · have := mul_le_mul_of_nonneg_right hq hc
    linarith

theorem np_percentile_eq {s : List PyFloat} (p : ℚ) (hne : s ≠ [])
    (hnan : PyFloat.nan ∉ s) :
    np_percentile s p = some (PyFloat.fin (percentileVal (PyFloat.vals s) p)) := by
  simp [np_percentile, hne, hnan]

theorem vals_map_fin (l : List ℚ) : PyFloat.vals (l.map PyFloat.fin) = l := by
  induction l with
  | nil => rfl
  | cons a l ih =>
    simp only [PyFloat.vals, List.map_cons, List.filterMap_cons] at *
    simpa using ih

theorem vals_ne_nil {s : List PyFloat} (hne : s ≠ []) (hnan : PyFloat.nan ∉ s) :
    PyFloat.vals s ≠ [] := by
  cases s with
  | nil => exact absurd rfl hne
  | cons a s =>
    cases a with
    | nan => exact absurd (List.mem_cons_self PyFloat.nan s) hnan
    | fin q => simp [PyFloat.vals, List.filterMap_cons]

theorem zipWith_mul_sum :
    ∀ (w v : List ℚ), w.length = v.length →
      (List.zipWith (· * ·) w v).sum =
        ∑ k ∈ Finset.range w.length, w.getD k 0 * v.getD k 0
  | [], _, _ => by simp
  | _ :: _, [], h => by simp at h
  | a :: w, b :: v, h => by
    have ih := zipWith_mul_sum w v (by simpa using h)
    simp only [List.zipWith_cons_cons, List.sum_cons, List.length_cons]
    rw [Finset.sum_range_succ']
    simp only [List.getD_cons_succ, List.getD_cons_zero]
    rw [← ih]
    ring

theorem sum_map_div (l : List ℚ) (c : ℚ) :
    (l.map (fun x => x / c)).sum = l.sum / c := by
  induction l with
  | nil => simp
  | cons a l ih => simp [ih, add_div]

theorem mem_fetchLoop_frame (fetch : String → FetchOutcome) :
    ∀ (ts : List String) (t : String) (h : List ℚ),
      (t, h) ∈ (fetchLoop fetch ts).1 ↔ t ∈ ts ∧ fetch t = .ok h ∧ h ≠ []
  | [], t, h => by simp [fetchLoop]
  | a :: ts, t, h => by
    have ih := mem_fetchLoop_frame fetch ts t h
    simp only [fetchLoop]
    cases hfa : fetch a with
    | ok ha =>
      by_cases hemp : ha.isEmpty
      · simp only [hemp, if_true]
        constructor
        · intro hm
          obtain ⟨h1, h2, h3⟩ := ih.mp hm
          exact ⟨List.mem_cons_of_mem _ h1, h2, h3⟩
        · rintro ⟨hmem, hft, hne⟩
          rcases List.mem_cons.mp hmem with rfl | hmem2
          · rw [hfa] at hft
            injection hft with hh
            rw [← hh] at hne
            exact absurd (List.isEmpty_iff.mp hemp) hne
          · exact ih.mpr ⟨hmem2, hft, hne⟩
      · simp only [hemp, if_false]
        constructor
        · intro hm
          rcases List.mem_cons.mp hm with heq | hm2
          · simp only [Prod.mk.injEq] at heq
            obtain ⟨rfl, rfl⟩ := heq
            refine ⟨List.mem_cons_self _ _, hfa, ?_⟩
            simpa [List.isEmpty_iff] using hemp
          · obtain ⟨h1, h2, h3⟩ := ih.mp hm2
            exact ⟨List.mem_cons_of_mem _ h1, h2, h3⟩
        · rintro ⟨hmem, hft, hne⟩
          rcases List.mem_cons.mp hmem with rfl | hmem2
          · rw [hfa] at hft
            injection hft with hh
            rw [hh]
            exact List.mem_cons_self _ _
          · exact List.mem_cons_of_mem _ (ih.mpr ⟨hmem2, hft, hne⟩)
    | err =>
      constructor
      · intro hm
        obtain ⟨h1, h2, h3⟩ := ih.mp hm
        exact ⟨List.mem_cons_of_mem _ h1, h2, h3⟩
      · rintro ⟨hmem, hft, hne⟩
        rcases List.mem_cons.mp hmem with rfl | hmem2
        · rw [hfa] at hft
          exact absurd hft (by simp)
        · exact ih.mpr ⟨hmem2, hft, hne⟩

theorem mem_fetchLoop_missing (fetch : String → FetchOutcome) :
    ∀ (ts : List String) (t : String),
      t ∈ (fetchLoop fetch ts).2 ↔ t ∈ ts ∧ (fetch t = .err ∨ fetch t = .ok [])
  | [], t => by simp [fetchLoop]
  | a :: ts, t => by
    have ih := mem_fetchLoop_missing fetch ts t
    simp only [fetchLoop]
    cases hfa : fetch a with
    | ok ha =>
      by_cases hemp : ha.isEmpty
      · simp only [hemp, if_true]
        constructor
        · intro hm
          rcases List.mem_cons.mp hm with rfl | hm2
          · refine ⟨List.mem_cons_self _ _, Or.inr ?_⟩
            rw [hfa, List.isEmpty_iff.mp hemp]
          · obtain ⟨h1, h2⟩ := ih.mp hm2
            exact ⟨List.mem_cons_of_mem _ h1, h2⟩
        · rintro ⟨hmem, hft⟩
          rcases List.mem_cons.mp hmem with rfl | hmem2
          · exact List.mem_cons_self _ _
          · exact List.mem_cons_of_mem _ (ih.mpr ⟨hmem2, hft⟩)
      · simp only [hemp, if_false]
        constructor
        · intro hm
          obtain ⟨h1, h2⟩ := ih.mp hm
          exact ⟨List.mem_cons_of_mem _ h1, h2⟩
        · rintro ⟨hmem, hft⟩
          rcases List.mem_cons.mp hmem with rfl | hmem2
          · rcases hft with hft | hft
            · rw [hfa] at hft
              exact absurd hft (by simp)
            · rw [hfa] at hft
              injection hft with hh
              rw [hh] at hemp
              exact absurd rfl hemp
          · exact ih.mpr ⟨hmem2, hft⟩
    | err =>
      constructor
      · intro hm
        rcases List.mem_cons.mp hm with rfl | hm2
        · exact ⟨List.mem_cons_self _ _, Or.inl hfa⟩
        · obtain ⟨h1, h2⟩ := ih.mp hm2
          exact ⟨List.mem_cons_of_mem _ h1, h2⟩
      · rintro ⟨hmem, hft⟩
        rcases List.mem_cons.mp hmem with rfl | hmem2
        · exact List.mem_cons_self _ _
        · exact List.mem_cons_of_mem _ (ih.mpr ⟨hmem2, hft⟩)

theorem mem_price_frame (fetch : String → FetchOutcome) (ts : List String)
    (t : String) (h : List ℚ) :
    (t, h) ∈ (get_price_history fetch ts).1 ↔
      t ∈ ts ∧ fetch t = .ok h ∧ h ≠ [] := by
  simp only [get_price_history, dropAllNaColumns, List.mem_filter,
    mem_fetchLoop_frame, Bool.not_eq_true', List.isEmpty_eq_false]
  constructor
  · rintro ⟨⟨h1, h2, h3⟩, _⟩
    exact ⟨h1, h2, h3⟩
  · rintro ⟨h1, h2, h3⟩
    exact ⟨⟨h1, h2, h3⟩, h3⟩

theorem mem_price_missing (fetch : String → FetchOutcome) (ts : List String)
    (t : String) :
    t ∈ (get_price_history fetch ts).2 ↔
      t ∈ ts ∧ (fetch t = .err ∨ fetch t = .ok []) :=
  mem_fetchLoop_missing fetch ts t

theorem zipWith_mul_self_sum_nonneg :
    ∀ l : List ℚ, 0 ≤ (List.zipWith (· * ·) l l).sum
  | [] => le_refl 0
  | a :: l => by
    simp only [List.zipWith_cons_cons, List.sum_cons]
    have h := zipWith_mul_self_sum_nonneg l
    nlinarith [mul_self_nonneg a]

theorem zipWith_mul_comm :
    ∀ a b : List ℚ, List.zipWith (· * ·) a b = List.zipWith (· * ·) b a
  | [], _ => by simp
  | _ :: _, [] => by simp
  | x :: a, y :: b => by simp [zipWith_mul_comm a b, mul_comm]

theorem covn_comm (x y : List ℚ) : covn x y = covn y x := by
  simp only [covn]
  rw [zipWith_mul_comm]

theorem covn_self_nonneg (x : List ℚ) : 0 ≤ covn x x :=
  zipWith_mul_self_sum_nonneg (centered x)

theorem corrEntry_comm (x y : List ℚ) : corrEntry x y = corrEntry y x := by
  simp only [corrEntry]
  rw [covn_comm x y, mul_comm (covn x x) (covn y y),
    mul_comm ((covn x x : ℝ)) ((covn y y : ℝ))]

theorem corrEntry_self {x : List ℚ} (hx : covn x x ≠ 0) :
    corrEntry x x = some 1 := by
  have hpos : 0 < covn x x := lt_of_le_of_ne (covn_self_nonneg x) (Ne.symm hx)
  have hpR : (0 : ℝ) < (covn x x : ℝ) := by exact_mod_cast hpos
  simp only [corrEntry]
  rw [if_neg (mul_ne_zero hx hx)]
  congr 1
  rw [Real.sqrt_mul_self (le_of_lt hpR)]
  exact div_self (ne_of_gt hpR)

theorem round2_one : round2 (1 : ℝ) = 1 := by
  have h100 : ((1 : ℝ) * 100) = ((100 : ℤ) : ℝ) := by norm_num
  simp only [round2, roundHalfEven, h100, Int.floor_intCast]
  rw [if_pos (by norm_num)]
  norm_num

theorem frame_nil_of_all_fail (fetch : String → FetchOutcome) (ts : List String)
    (hf : ∀ t ∈ ts, fetch t = .err ∨ fetch t = .ok []) :
    (get_price_history fetch ts).1 = [] := by
  apply List.eq_nil_iff_forall_not_mem.mpr
  rintro ⟨t, h⟩ hm
  rw [mem_price_frame] at hm
  obtain ⟨h1, h2, h3⟩ := hm
  rcases hf t h1 with he | he
  · rw [h2] at he
    exact absurd he (by simp)
  · rw [h2] at he
    injection he with hh
    exact h3 hh

theorem np_percentile_map_fin (l : List ℚ) (p : ℚ) (hl : l ≠ []) :
    np_percentile (l.map PyFloat.fin) p = some (PyFloat.fin (percentileVal l p)) := by
  have hnan : PyFloat.nan ∉ l.map PyFloat.fin := by simp
  have hne : l.map PyFloat.fin ≠ [] := by simpa using hl
  rw [np_percentile_eq p hne hnan, vals_map_fin]

/-! ## Claim theorems -/

/-- C1: when every requested ticker fails to fetch (error or empty history),
the fetched price frame is empty and show_risk_dashboard returns the
no-data sentinel `none` (modelling the (None, None, None) early return):
no VaR, correlation or projection output is produced, and the condition is
a returned value, not an exception. -/
theorem C1_dashboard_no_data (fetch : String → FetchOutcome)
    (portefeuille : List (String × ℚ))
    (hfail : ∀ t ∈ portefeuille.map (fun p => p.1),
      fetch t = .err ∨ fetch t = .ok []) :
    show_risk_dashboard fetch portefeuille = none := by
  have hnil := frame_nil_of_all_fail fetch _ hfail
  simp [show_risk_dashboard, hnil]

theorem C1_witness :
    show_risk_dashboard (fun _ => FetchOutcome.err) [("AAPL", 100)] = none :=
  C1_dashboard_no_data _ _ (fun _ _ => Or.inl rfl)

/-- C2: for every aligned return matrix and weight vector, the portfolio VaR
computed by compute_portfolio_var at confidence 0.95 and 0.99 equals the
spec formula: the negation of the (1-c)*100-th percentile (5th resp. 1st)
of the per-date weighted portfolio return series sum of weight_i times
return_i. -/
theorem C2_portfolio_var_spec (returns : List (List ℚ)) (weights : List ℚ)
    (hne : returns ≠ []) :
    compute_portfolio_var returns weights (95 / 100) =
      some (PyFloat.fin (portfolioVarSpec returns weights (95 / 100))) ∧
    compute_portfolio_var returns weights (99 / 100) =
      some (PyFloat.fin (portfolioVarSpec returns weights (99 / 100))) ∧
    portfolioVarSpec returns weights (95 / 100) =
      -(percentileVal (returns.map (dotProd weights)) 5) ∧
    portfolioVarSpec returns weights (99 / 100) =
      -(percentileVal (returns.map (dotProd weights)) 1) := by
  have hmne : returns.map (dotProd weights) ≠ [] := by simpa using hne
  have h95 : ((1 : ℚ) - 95 / 100) * 100 = 5 := by norm_num
  have h99 : ((1 : ℚ) - 99 / 100) * 100 = 1 := by norm_num
  have hd : returns.map (fun row => (List.zipWith (· * ·) weights row).sum) =
      returns.map (dotProd weights) := rfl
  refine ⟨?_, ?_, ?_, ?_⟩
  · simp only [compute_portfolio_var, calc_var, h95]
    rw [np_percentile_map_fin _ _ hmne]
    simp only [portfolioVarSpec, hd, h95]
    rfl
  · simp only [compute_portfolio_var, calc_var, h99]
    rw [np_percentile_map_fin _ _ hmne]
    simp only [portfolioVarSpec, hd, h99]
    rfl
  · simp only [portfolioVarSpec, hd, h95]
  · simp only [portfolioVarSpec, hd, h99]

theorem C2_witness :
    compute_portfolio_var [[1], [2]] [1] (95 / 100) =
      some (PyFloat.fin (portfolioVarSpec [[1], [2]] [1] (95 / 100))) ∧
    compute_portfolio_var [[1], [2]] [1] (99 / 100) =
      some (PyFloat.fin (portfolioVarSpec [[1], [2]] [1] (99 / 100))) ∧
    portfolioVarSpec [[1], [2]] [1] (95 / 100) =
      -(percentileVal ([[1], [2]].map (dotProd [1])) 5) ∧
    portfolioVarSpec [[1], [2]] [1] (99 / 100) =
      -(percentileVal ([[1], [2]].map (dotProd [1])) 1) :=
  C2_portfolio_var_spec [[1], [2]] [1] (by decide)

/-- C3: the portfolio-weighted volatility of line 116 is the weighted sum
(weighted average) sum of weight_i times volatility_i of the individual
volatilities, and on weights 0.6, 0.4 with volatilities 10 and 20 it gives
0.6 * 10 + 0.4 * 20 = 14. -/
theorem C3_vol_pond (w v : List ℚ) (hlen : w.length = v.length) :
    vol_pond w v = ∑ k ∈ Finset.range w.length, w.getD k 0 * v.getD k 0 ∧
    vol_pond [6 / 10, 4 / 10] [10, 20] = (6 / 10 : ℚ) * 10 + (4 / 10) * 20 ∧
    vol_pond [6 / 10, 4 / 10] [10, 20] = 14 :=
  ⟨zipWith_mul_sum w v hlen, by norm_num [vol_pond], by norm_num [vol_pond]⟩

theorem C3_witness :
    vol_pond [6 / 10, 4 / 10] [10, 20] =
      ∑ k ∈ Finset.range ([(6 : ℚ) / 10, 4 / 10].length),
        [(6 : ℚ) / 10, 4 / 10].getD k 0 * [(10 : ℚ), 20].getD k 0 ∧
    vol_pond [6 / 10, 4 / 10] [10, 20] = (6 / 10 : ℚ) * 10 + (4 / 10) * 20 ∧
    vol_pond [6 / 10, 4 / 10] [10, 20] = 14 :=
  C3_vol_pond [6 / 10, 4 / 10] [10, 20] rfl

theorem sum_map_snd_div (l : List (String × ℚ)) (c : ℚ) :
    (l.map (fun x => x.2 / c)).sum = (l.map (fun p => p.2)).sum / c := by
  induction l with
  | nil => simp
  | cons a l ih => simp [ih, add_div]

/-- C4: whenever every portfolio value is nonnegative and at least one
ticker both participates (has a price-history column) and carries a
positive value, the weight vector of lines 97-99 sums to exactly 1 (hence
within tolerance 1e-9), and a ticker without a price-history column never
appears in the weight vector. -/
theorem C4_weights_sum_one (portefeuille : List (String × ℚ)) (cols : List String)
    (hnn : ∀ p ∈ portefeuille, 0 ≤ p.2)
    (hex : ∃ p ∈ portefeuille, cols.contains p.1 ∧ 0 < p.2) :
    ((compute_weights portefeuille cols).map (fun p => p.2)).sum = 1 ∧
    |((compute_weights portefeuille cols).map (fun p => p.2)).sum - 1| ≤ 1 / 10 ^ 9 ∧
    ∀ t w, ¬ cols.contains t → (t, w) ∉ compute_weights portefeuille cols := by
  obtain ⟨p0, hp0mem, hp0c, hp0pos⟩ := hex
  have hp0valid : p0 ∈ portefeuille.filter (fun p => cols.contains p.1) :=
    List.mem_filter.mpr ⟨hp0mem, hp0c⟩
  have hvnn : ∀ x ∈ (portefeuille.filter (fun p => cols.contains p.1)).map
      (fun p => p.2), 0 ≤ x := by
    intro x hx
    obtain ⟨q, hq, rfl⟩ := List.mem_map.mp hx
    exact hnn q (List.mem_filter.mp hq).1
  have hp0v : p0.2 ∈ (portefeuille.filter (fun p => cols.contains p.1)).map
      (fun p => p.2) := List.mem_map_of_mem _ hp0valid
  have htot : 0 < ((portefeuille.filter (fun p => cols.contains p.1)).map
      (fun p => p.2)).sum :=
    lt_of_lt_of_le hp0pos (List.single_le_sum hvnn _ hp0v)
  have hsum : ((compute_weights portefeuille cols).map (fun p => p.2)).sum = 1 := by
    simp only [compute_weights, List.map_map]
    have hcomp : ((fun p : String × ℚ => p.2) ∘
        (fun p : String × ℚ => (p.1, p.2 /
          (((portefeuille.filter (fun p => cols.contains p.1)).map
            (fun p => p.2)).sum)))) =
        (fun x : String × ℚ => x.2 /
          (((portefeuille.filter (fun p => cols.contains p.1)).map
            (fun p => p.2)).sum)) := rfl
    rw [hcomp, sum_map_snd_div]
    exact div_self (ne_of_gt htot)
  refine ⟨hsum, by rw [hsum]; norm_num, ?_⟩
  intro t w hnc hmem
  simp only [compute_weights, List.mem_map, List.mem_filter] at hmem
  obtain ⟨q, ⟨_, hqc⟩, heq⟩ := hmem
  have hfst : q.1 = t := congrArg Prod.fst heq
  rw [hfst] at hqc
  exact hnc hqc

theorem C4_witness :
    ((compute_weights [("A", 2), ("B", 3)] ["A"]).map (fun p => p.2)).sum = 1 ∧
    |((compute_weights [("A", 2), ("B", 3)] ["A"]).map (fun p => p.2)).sum - 1| ≤
      1 / 10 ^ 9 ∧
    ∀ t w, ¬ (["A"] : List String).contains t →
      (t, w) ∉ compute_weights [("A", 2), ("B", 3)] ["A"] :=
  C4_weights_sum_one [("A", 2), ("B", 3)] ["A"]
    (by decide) ⟨("A", 2), by decide, by decide, by norm_num⟩

/-- C5: for every non-degenerate weighted portfolio return series (nonempty,
containing no NaN), calc_var succeeds at both confidence levels and the VaR
at 99 percent confidence is at least the VaR at 95 percent confidence. -/
theorem C5_var99_ge_var95 (series : List PyFloat) (hne : series ≠ [])
    (hnan : PyFloat.nan ∉ series) :
    ∃ v95 v99 : ℚ,
      calc_var series (95 / 100) = some (PyFloat.fin v95) ∧
      calc_var series (99 / 100) = some (PyFloat.fin v99) ∧
      v95 ≤ v99 := by
  have h95 : ((1 : ℚ) - 95 / 100) * 100 = 5 := by norm_num
  have h99 : ((1 : ℚ) - 99 / 100) * 100 = 1 := by norm_num
  have hvne : PyFloat.vals series ≠ [] := vals_ne_nil hne hnan
  refine ⟨-(percentileVal (PyFloat.vals series) 5),
    -(percentileVal (PyFloat.vals series) 1), ?_, ?_, ?_⟩
  · simp only [calc_var, h95]
    rw [np_percentile_eq 5 hne hnan]
    rfl
  · simp only [calc_var, h99]
    rw [np_percentile_eq 1 hne hnan]
    rfl
  · have := percentileVal_mono (PyFloat.vals series) hvne
      (show (0:ℚ) ≤ 1 by norm_num) (show (1:ℚ) ≤ 5 by norm_num)
      (show (5:ℚ) ≤ 100 by norm_num)
    linarith

theorem C5_witness :
    ∃ v95 v99 : ℚ,
      calc_var [PyFloat.fin (-1), PyFloat.fin 2] (95 / 100) =
        some (PyFloat.fin v95) ∧
      calc_var [PyFloat.fin (-1), PyFloat.fin 2] (99 / 100) =
        some (PyFloat.fin v99) ∧
      v95 ≤ v99 :=
  C5_var99_ge_var95 [PyFloat.fin (-1), PyFloat.fin 2] (by decide) (by decide)

/-- C6: get_price_history is total over every fetch behaviour (per-ticker
failures are non-fatal): every requested ticker ends up either as a price
frame column with a nonempty history and not in the missing list, or in the
missing list and not in the frame; in particular a ticker whose fetch raises
or returns an empty history is in the missing list. -/
theorem C6_get_price_history_partition (fetch : String → FetchOutcome)
    (tickers : List String) (t : String) (ht : t ∈ tickers) :
    (((∃ h, (t, h) ∈ (get_price_history fetch tickers).1 ∧ h ≠ []) ∧
        t ∉ (get_price_history fetch tickers).2) ∨
      (t ∈ (get_price_history fetch tickers).2 ∧
        ∀ h, (t, h) ∉ (get_price_history fetch tickers).1)) ∧
    ((fetch t = .err ∨ fetch t = .ok []) →
      t ∈ (get_price_history fetch tickers).2) := by
  constructor
  · cases hft : fetch t with
    | ok hs =>
      by_cases hemp : hs = []
      · refine Or.inr ⟨?_, ?_⟩
        · exact (mem_price_missing fetch tickers t).mpr ⟨ht, Or.inr (hemp ▸ hft)⟩
        · intro h2 hmem
          obtain ⟨_, hf2, hne2⟩ := (mem_price_frame fetch tickers t h2).mp hmem
          rw [hft] at hf2
          injection hf2 with hh
          rw [← hh] at hne2
          exact hne2 hemp
      · refine Or.inl ⟨⟨hs, (mem_price_frame fetch tickers t hs).mpr
          ⟨ht, hft, hemp⟩, hemp⟩, ?_⟩
        intro hmiss
        obtain ⟨_, hor⟩ := (mem_price_missing fetch tickers t).mp hmiss
        rcases hor with he | he
        · rw [hft] at he
          exact absurd he (by simp)
        · rw [hft] at he
          injection he with hh
          exact hemp hh
    | err =>
      refine Or.inr ⟨(mem_price_missing fetch tickers t).mpr ⟨ht, Or.inl hft⟩, ?_⟩
      intro h2 hmem
      obtain ⟨_, hf2, _⟩ := (mem_price_frame fetch tickers t h2).mp hmem
      rw [hft] at hf2
      exact absurd hf2 (by simp)
  · intro hf
    exact (mem_price_missing fetch tickers t).mpr ⟨ht, hf⟩

theorem C6_witness :
    (((∃ h, (("B" : String), h) ∈
          (get_price_history (fun _ => FetchOutcome.err) ["B"]).1 ∧ h ≠ []) ∧
        "B" ∉ (get_price_history (fun _ => FetchOutcome.err) ["B"]).2) ∨
      ("B" ∈ (get_price_history (fun _ => FetchOutcome.err) ["B"]).2 ∧
        ∀ h, (("B" : String), h) ∉
          (get_price_history (fun _ => FetchOutcome.err) ["B"]).1)) ∧
    (((fun _ => FetchOutcome.err) "B" = FetchOutcome.err ∨
        (fun _ => FetchOutcome.err) "B" = FetchOutcome.ok []) →
      "B" ∈ (get_price_history (fun _ => FetchOutcome.err) ["B"]).2) :=
  C6_get_price_history_partition (fun _ => FetchOutcome.err) ["B"] "B"
    (List.mem_cons_self "B" [])

/-- C7 counterexample: on the zero-length return series the VaR computation
does not return a NaN value; numpy percentile raises on empty input, so the
computation fails (modelled by none) rather than producing NaN. -/
theorem C7_cex : calc_var [] (95 / 100) = none ∧
    calc_var [] (95 / 100) ≠ some PyFloat.nan :=
  ⟨rfl, by decide⟩

/-- C7 amended: NaN inputs inside a nonempty return series propagate as NaN
without raising, but a zero-length series makes the percentile call raise
(numpy IndexError on an empty take), not return NaN. -/
theorem C7_nan_propagation (series : List PyFloat) (c : ℚ)
    (hne : series ≠ []) (hnan : PyFloat.nan ∈ series) :
    calc_var series c = some PyFloat.nan ∧
    calc_var ([] : List PyFloat) c = none := by
  constructor
  · simp [calc_var, np_percentile, hne, hnan, PyFloat.neg]
  · simp [calc_var, np_percentile]

theorem C7_witness :
    calc_var [PyFloat.nan] (95 / 100) = some PyFloat.nan ∧
    calc_var ([] : List PyFloat) (95 / 100) = none :=
  C7_nan_propagation [PyFloat.nan] (95 / 100) (by decide) (by decide)

theorem corr_matrix_entry (cols : List (List ℚ)) {a b : ℕ}
    (ha : a < cols.length) (hb : b < cols.length) :
    ((corr_matrix cols).getD a []).getD b none =
      (corrEntry (cols.getD a []) (cols.getD b [])).map round2 := by
  have hma : a < (cols.map (fun x => cols.map
      (fun y => (corrEntry x y).map round2))).length := by simpa using ha
  simp only [corr_matrix]
  rw [getD_of_lt _ [] hma]
  simp only [List.getElem_map]
  have hmb : b < (cols.map
      (fun y => (corrEntry cols[a] y).map round2)).length := by simpa using hb
  rw [getD_of_lt _ none hmb]
  simp only [List.getElem_map]
  rw [getD_of_lt cols [] ha, getD_of_lt cols [] hb]

/-- C8 counterexample: a constant (zero-variance) return series yields a NaN
(undefined) diagonal entry in the correlation matrix, not 1.0. -/
theorem C8_cex :
    ((corr_matrix [[0, 0]]).getD 0 []).getD 0 none ≠ some (1 : ℝ) := by
  have hc : covn [0, 0] [0, 0] = 0 := by norm_num [covn, centered, lmean]
  rw [corr_matrix_entry [[0, 0]] (by norm_num) (by norm_num)]
  simp [corrEntry, hc]

/-- C8 amended: the correlation matrix round(2) of the return columns is
always symmetric, and every diagonal entry whose return series has nonzero
variance is exactly 1.0 after rounding; a zero-variance (constant) series
instead produces a NaN (undefined) diagonal entry. -/
theorem C8_corr_matrix (cols : List (List ℚ)) (i j : ℕ)
    (hi : i < cols.length) (hj : j < cols.length) :
    ((corr_matrix cols).getD i []).getD j none =
      ((corr_matrix cols).getD j []).getD i none ∧
    (covn (cols.getD i []) (cols.getD i []) ≠ 0 →
      ((corr_matrix cols).getD i []).getD i none = some (1 : ℝ)) := by
  constructor
  · rw [corr_matrix_entry cols hi hj, corr_matrix_entry cols hj hi,
      corrEntry_comm]
  · intro hc
    rw [corr_matrix_entry cols hi hi, corrEntry_self hc]
    simp [round2_one]

theorem C8_witness :
    ((corr_matrix [[1, 2]]).getD 0 []).getD 0 none = some (1 : ℝ) :=
  (C8_corr_matrix [[1, 2]] 0 0 (by norm_num) (by norm_num)).2
    (by norm_num [covn, centered, lmean])

/-- C9: the holdings parser skips blank lines, splits the remaining lines on
the / separator, defaults a missing dividend field to 0 and stores
totalDividends = dividendPerUnit * quantity; the line AAPL/150.0/10/2.5
yields totalDividends = 25, and with entry price 150 and current price 180
the Performance percentage is 20.00. -/
theorem C9_lire_portefeuille (line : List Char) (rest : List (List Char))
    (hblank : stripChars line = []) :
    lire_portefeuille (line :: rest) = lire_portefeuille rest ∧
    (∀ (l a b c : List Char) (pos : Position),
      splitOnChar '/' l = [a, b, c] → parseLine l = some pos →
      pos.dividendes_totaux = 0) ∧
    (∀ (l a b c d : List Char) (u q : ℚ) (pos : Position),
      splitOnChar '/' l = [a, b, c, d] → parseFloat c = some q →
      parseFloat d = some u → parseLine l = some pos →
      pos.dividendes_totaux = u * q ∧ pos.quantite = q) ∧
    lire_portefeuille ["AAPL/150.0/10/2.5".data] =
      some [⟨"AAPL", 150, 10, 25⟩] ∧
    lire_portefeuille ["X/1/2".data] = some [⟨"X", 1, 2, 0⟩] ∧
    performance_pct 150 180 = 20 := by
  refine ⟨?_, ?_, ?_, ?_, ?_, ?_⟩
  · simp [lire_portefeuille, hblank]
  · intro l a b c pos hsplit hpos
    simp only [parseLine, hsplit] at hpos
    rcases hfb : parseFloat b with _ | vb <;>
      rcases hfc : parseFloat c with _ | vc <;>
        simp [hfb, hfc, Option.bind] at hpos
    rw [← hpos]
  · intro l a b c d u q pos hsplit hfc hfd hpos
    simp only [parseLine, hsplit] at hpos
    rcases hfb : parseFloat b with _ | vb <;>
      simp [hfb, hfc, hfd, Option.bind] at hpos
    rw [← hpos]
    exact ⟨rfl, rfl⟩
  · simp +decide [lire_portefeuille, parseLine, parseFloat, parseUnsigned,
      splitOnChar, stripChars, digitsVal, Option.bind, List.dropWhile]
    all_goals norm_num
  · simp +decide [lire_portefeuille, parseLine, parseFloat, parseUnsigned,
      splitOnChar, stripChars, digitsVal, Option.bind, List.dropWhile]
  · norm_num [performance_pct, round2, roundHalfEven]

theorem C9_witness :
    lire_portefeuille (" ".data :: ["X/1/2".data]) =
      lire_portefeuille ["X/1/2".data] ∧
    (∀ (l a b c : List Char) (pos : Position),
      splitOnChar '/' l = [a, b, c] → parseLine l = some pos →
      pos.dividendes_totaux = 0) ∧
    (∀ (l a b c d : List Char) (u q : ℚ) (pos : Position),
      splitOnChar '/' l = [a, b, c, d] → parseFloat c = some q →
      parseFloat d = some u → parseLine l = some pos →
      pos.dividendes_totaux = u * q ∧ pos.quantite = q) ∧
    lire_portefeuille ["AAPL/150.0/10/2.5".data] =
      some [⟨"AAPL", 150, 10, 25⟩] ∧
    lire_portefeuille ["X/1/2".data] = some [⟨"X", 1, 2, 0⟩] ∧
    performance_pct 150 180 = 20 :=
  C9_lire_portefeuille " ".data ["X/1/2".data] (by decide)

/-- C10: whenever the risk dashboard produces an output (the price frame is
not empty), the deterministic fixed-rate projection it displays is computed
with annual expected return 0, so at every horizon y in YEARS the projected
value equals the current total portfolio value V = V * (1 + 0/100)^y. -/
theorem C10_projection_r_zero (fetch : String → FetchOutcome)
    (portefeuille : List (String × ℚ)) (out : DashboardOutput)
    (hout : show_risk_dashboard fetch portefeuille = some out) :
    out.proj_moyenne = YEARS.map (fun y => (y, out.valeur_actuelle)) := by
  simp only [show_risk_dashboard] at hout
  by_cases hemp :
      (get_price_history fetch (portefeuille.map (fun p => p.1))).1.isEmpty
  · rw [if_pos hemp] at hout
    exact absurd hout (by simp)
  · rw [if_neg hemp] at hout
    obtain rfl := Option.some.inj hout
    simp [projection_moyenne]

theorem C10_witness :
    ∃ out : DashboardOutput,
      show_risk_dashboard (fun _ => FetchOutcome.ok [1, 2]) [("A", 5)] =
        some out ∧
      out.proj_moyenne = YEARS.map (fun y => (y, out.valeur_actuelle)) := by
  have hfr : (get_price_history (fun _ => FetchOutcome.ok [1, 2])
      ([("A", (5 : ℚ))].map (fun p => p.1))).1 = [("A", [1, 2])] := by decide
  have hsome : ∃ out, show_risk_dashboard (fun _ => FetchOutcome.ok [1, 2])
      [("A", 5)] = some out := by
    simp only [show_risk_dashboard, hfr]
    rw [if_neg (by simp)]
    exact ⟨_, rfl⟩
  obtain ⟨out, hout⟩ := hsome
  exact ⟨out, hout, C10_projection_r_zero _ _ out hout⟩
